import Mathlib

/- Verification of the dfdx tensor-kernel excerpt.

   Shallow embedding of:
   - the cpu pooling kernels (src/tensor_ops/pool2d/cpu_kernel.rs),
   - the cuda convolution kernel call structure (src/tensor_ops/conv2d/cuda_kernel.rs),
   - the RMSprop cpu kernel (src/optim/rmsprop/cpu_kernel.rs),
   - the comparison / choose / gather-select / min-reduce forward metadata,
   - the lazy (module, function) compiled-kernel cache of the cuda device.

   Element data is modelled over the rationals; device buffers are modelled as
   total functions from physical offsets to values, and buffer writes as
   Function.update.  Fallible code is modelled with Option. -/

namespace Dfdx

/-- Rust `usize::checked_sub`: subtraction failing on underflow, as used for
padding arithmetic in the pooling and convolution kernels. -/
def checked_sub (a b : Nat) : Option Nat := if b ≤ a then some (a - b) else none

/-- The Pool2DOp operation descriptor: kernel size, stride, padding, and the
tensor extents, as consumed by the pool2d cpu kernels. -/
structure Pool2DOp where
  kernel : Nat
  stride : Nat
  padding : Nat
  batch : Nat
  chan : Nat
  h_in : Nat
  w_in : Nat
  h_out : Nat
  w_out : Nat

/-- Physical buffer offset of logical position (b, c, y, x) under 4d strides,
mirroring `b * str[0] + c * str[1] + y * str[2] + x * str[3]` in the kernels. -/
def idx4 (str : Fin 4 → Nat) (b c y x : Nat) : Nat :=
  b * str 0 + c * str 1 + y * str 2 + x * str 3

/-- A concrete 4d strides array, backed by a list for direct evaluation. -/
def strides4 (a b c d : Nat) : Fin 4 → Nat := fun i => [a, b, c, d].getD i.val 0

/-- AvgPool2DKernel::forward for Cpu (pool2d/cpu_kernel.rs): for every output
position, sum the in-bounds window elements, divide by the full kernel area,
and write the result to the output buffer. -/
def avgPool2dForward (op : Pool2DOp) (istr ostr : Fin 4 → Nat)
    (inp : Nat → ℚ) (out : Nat → ℚ) : Nat → ℚ :=
  (List.range op.batch).foldl (fun ob b =>
    (List.range op.chan).foldl (fun ob c =>
      (List.range op.h_out).foldl (fun ob oh =>
        (List.range op.w_out).foldl (fun ob ow =>
          Function.update ob (idx4 ostr b c oh ow)
            (((List.range op.kernel).foldl (fun tmp k1 =>
              (List.range op.kernel).foldl (fun tmp k2 =>
                match checked_sub (oh * op.stride + k1) op.padding,
                      checked_sub (ow * op.stride + k2) op.padding with
                | some y, some x =>
                    if y < op.h_in ∧ x < op.w_in then tmp + inp (idx4 istr b c y x) else tmp
                | _, _ => tmp) tmp) 0) / ((op.kernel * op.kernel : ℕ) : ℚ)))
          ob) ob) ob) out

/-- AvgPool2DKernel::backward for Cpu (pool2d/cpu_kernel.rs): for every output
position, divide its output gradient by the full kernel area and add the result
to the gradient slot of every in-bounds window position.  The inp and out
buffers are part of the kernel signature but unused by the average pool. -/
def avgPool2dBackward (op : Pool2DOp) (istr ostr : Fin 4 → Nat)
    (inp : Nat → ℚ) (grad_inp : Nat → ℚ) (out : Nat → ℚ) (grad_out : Nat → ℚ) : Nat → ℚ :=
  (List.range op.batch).foldl (fun gi b =>
    (List.range op.chan).foldl (fun gi c =>
      (List.range op.h_out).foldl (fun gi oh =>
        (List.range op.w_out).foldl (fun gi ow =>
          (List.range op.kernel).foldl (fun gi k1 =>
            (List.range op.kernel).foldl (fun gi k2 =>
              match checked_sub (oh * op.stride + k1) op.padding,
                    checked_sub (ow * op.stride + k2) op.padding with
              | some y, some x =>
                  if y < op.h_in ∧ x < op.w_in then
                    Function.update gi (idx4 istr b c y x)
                      (gi (idx4 istr b c y x) +
                        grad_out (idx4 ostr b c oh ow) / ((op.kernel * op.kernel : ℕ) : ℚ))
                  else gi
              | _, _ => gi) gi) gi) gi) gi) gi) grad_inp

/-- MaxPool2DKernel::backward for Cpu (pool2d/cpu_kernel.rs): for every output
position, add the full output gradient to the gradient slot of every in-bounds
window position whose input value equals the recorded output value. -/
def maxPool2dBackward (op : Pool2DOp) (istr ostr : Fin 4 → Nat)
    (inp : Nat → ℚ) (grad_inp : Nat → ℚ) (out : Nat → ℚ) (grad_out : Nat → ℚ) : Nat → ℚ :=
  (List.range op.batch).foldl (fun gi b =>
    (List.range op.chan).foldl (fun gi c =>
      (List.range op.h_out).foldl (fun gi oh =>
        (List.range op.w_out).foldl (fun gi ow =>
          (List.range op.kernel).foldl (fun gi k1 =>
            (List.range op.kernel).foldl (fun gi k2 =>
              match checked_sub (oh * op.stride + k1) op.padding,
                    checked_sub (ow * op.stride + k2) op.padding with
              | some y, some x =>
                  if y < op.h_in ∧ x < op.w_in then
                    if inp (idx4 istr b c y x) = out (idx4 ostr b c oh ow) then
                      Function.update gi (idx4 istr b c y x)
                        (gi (idx4 istr b c y x) + grad_out (idx4 ostr b c oh ow))
                    else gi
                  else gi
              | _, _ => gi) gi) gi) gi) gi) gi) grad_inp

/-- MinPool2DKernel::backward for Cpu (pool2d/cpu_kernel.rs): identical loop
body to the max pool backward, again keyed on exact equality with the recorded
output value. -/
def minPool2dBackward (op : Pool2DOp) (istr ostr : Fin 4 → Nat)
    (inp : Nat → ℚ) (grad_inp : Nat → ℚ) (out : Nat → ℚ) (grad_out : Nat → ℚ) : Nat → ℚ :=
  (List.range op.batch).foldl (fun gi b =>
    (List.range op.chan).foldl (fun gi c =>
      (List.range op.h_out).foldl (fun gi oh =>
        (List.range op.w_out).foldl (fun gi ow =>
          (List.range op.kernel).foldl (fun gi k1 =>
            (List.range op.kernel).foldl (fun gi k2 =>
              match checked_sub (oh * op.stride + k1) op.padding,
                    checked_sub (ow * op.stride + k2) op.padding with
              | some y, some x =>
                  if y < op.h_in ∧ x < op.w_in then
                    if inp (idx4 istr b c y x) = out (idx4 ostr b c oh ow) then
                      Function.update gi (idx4 istr b c y x)
                        (gi (idx4 istr b c y x) + grad_out (idx4 ostr b c oh ow))
                    else gi
                  else gi
              | _, _ => gi) gi) gi) gi) gi) gi) grad_inp

/-- Specification-side view of one window position: the physical input offset
covered by kernel offset (k1, k2) of window (b, c, oh, ow), or none when the
position falls outside the input bounds (padding). -/
def poolIdx? (op : Pool2DOp) (istr : Fin 4 → Nat) (b c oh ow k1 k2 : Nat) : Option Nat :=
  match checked_sub (oh * op.stride + k1) op.padding,
        checked_sub (ow * op.stride + k2) op.padding with
  | some y, some x => if y < op.h_in ∧ x < op.w_in then some (idx4 istr b c y x) else none
  | _, _ => none

/-- Sum of f over 0, ..., n-1, used to state loop accumulation in closed form. -/
def rsum (n : Nat) (f : Nat → ℚ) : ℚ := ((List.range n).map f).sum

/-- Contribution of kernel offset (k1, k2) of window (b, c, oh, ow) to gradient
slot j under the tie rule of the max/min pool backward kernels: the full window
gradient whenever the position is in bounds, its input value ties with the
recorded output value, and j is its offset. -/
def tieDelta (op : Pool2DOp) (istr ostr : Fin 4 → Nat) (inp out gout : Nat → ℚ)
    (b c oh ow k1 k2 j : Nat) : ℚ :=
  match poolIdx? op istr b c oh ow k1 k2 with
  | some i => if inp i = out (idx4 ostr b c oh ow) ∧ j = i then gout (idx4 ostr b c oh ow) else 0
  | none => 0

/-- Total tie-rule contribution to gradient slot j over all windows and kernel
offsets. -/
def tieContrib (op : Pool2DOp) (istr ostr : Fin 4 → Nat) (inp out gout : Nat → ℚ) (j : Nat) : ℚ :=
  rsum op.batch fun b => rsum op.chan fun c => rsum op.h_out fun oh => rsum op.w_out fun ow =>
    rsum op.kernel fun k1 => rsum op.kernel fun k2 =>
      tieDelta op istr ostr inp out gout b c oh ow k1 k2 j

/-- Contribution of kernel offset (k1, k2) of window (b, c, oh, ow) to gradient
slot j in the average pool backward kernel: the window gradient divided by the
full kernel area, at the covered offset, when the position is in bounds. -/
def avgDelta (op : Pool2DOp) (istr ostr : Fin 4 → Nat) (gout : Nat → ℚ)
    (b c oh ow k1 k2 j : Nat) : ℚ :=
  match poolIdx? op istr b c oh ow k1 k2 with
  | some i =>
      if j = i then gout (idx4 ostr b c oh ow) / ((op.kernel * op.kernel : ℕ) : ℚ) else 0
  | none => 0

/-- Total average pool backward contribution to gradient slot j over all
windows and kernel offsets. -/
def avgContrib (op : Pool2DOp) (istr ostr : Fin 4 → Nat) (gout : Nat → ℚ) (j : Nat) : ℚ :=
  rsum op.batch fun b => rsum op.chan fun c => rsum op.h_out fun oh => rsum op.w_out fun ow =>
    rsum op.kernel fun k1 => rsum op.kernel fun k2 =>
      avgDelta op istr ostr gout b c oh ow k1 k2 j

/-- Amount the average pool backward kernel adds for kernel offset (k1, k2) of
window (b, c, oh, ow): the window gradient over the full kernel area when the
position is in bounds, 0 when it falls outside the input. -/
def avgWindowAdd (op : Pool2DOp) (istr ostr : Fin 4 → Nat) (gout : Nat → ℚ)
    (b c oh ow k1 k2 : Nat) : ℚ :=
  match poolIdx? op istr b c oh ow k1 k2 with
  | some _ => gout (idx4 ostr b c oh ow) / ((op.kernel * op.kernel : ℕ) : ℚ)
  | none => 0

/-- Number of in-bounds kernel positions of window (b, c, oh, ow). -/
def inBoundsCount (op : Pool2DOp) (istr : Fin 4 → Nat) (b c oh ow : Nat) : Nat :=
  ((List.range op.kernel).map fun k1 =>
    (List.range op.kernel).countP fun k2 => (poolIdx? op istr b c oh ow k1 k2).isSome).sum

/-- Value the average pool forward kernel writes for window (b, c, oh, ow):
the sum of the in-bounds window elements divided by the full kernel area,
whether or not all kernel positions were in bounds. -/
def avgWindowVal (op : Pool2DOp) (istr : Fin 4 → Nat) (inp : Nat → ℚ) (b c oh ow : Nat) : ℚ :=
  (rsum op.kernel fun k1 => rsum op.kernel fun k2 =>
    match poolIdx? op istr b c oh ow k1 k2 with
    | some i => inp i
    | none => 0) / ((op.kernel * op.kernel : ℕ) : ℚ)

/-- All windows (b, c, oh, ow) visited by the pooling loops, in loop order. -/
def poolWindows (op : Pool2DOp) : List (Nat × Nat × Nat × Nat) :=
  (List.range op.batch).flatMap fun b => (List.range op.chan).flatMap fun c =>
    (List.range op.h_out).flatMap fun oh => (List.range op.w_out).map fun ow => (b, c, oh, ow)

/-- The Conv2DOp operation descriptor consumed by the conv2d kernels. -/
structure Conv2DOp where
  stride : Nat
  padding : Nat
  kernel : Nat
  batch : Nat
  chan_in : Nat
  chan_out : Nat
  h_in : Nat
  w_in : Nat
  h_out : Nat
  w_out : Nat

/-- Modelled from the spec: the unfold_input_into_patches device kernel of the
cuda conv2d module (the .cu source is an external compiled artifact).  Writes,
in row-major (batch, chan_in * kernel * kernel, h_out * w_out) layout, the
input element covered by each (channel, kernel offset, output position), or 0
when the position falls outside the input bounds. -/
def unfoldPatches (op : Conv2DOp) (inp : Nat → Nat → Nat → Nat → ℚ) (idx : Nat) : ℚ :=
  let n := op.h_out * op.w_out
  let kk := op.kernel * op.kernel
  let ckk := op.chan_in * kk
  let b := idx / (ckk * n)
  let l := (idx / n) % ckk
  let p := idx % n
  let c := l / kk
  let k1 := (l % kk) / op.kernel
  let k2 := l % op.kernel
  let oh := p / op.w_out
  let ow := p % op.w_out
  match checked_sub (oh * op.stride + k1) op.padding,
        checked_sub (ow * op.stride + k2) op.padding with
  | some y, some x => if y < op.h_in ∧ x < op.w_in then inp b c y x else 0
  | _, _ => 0

/-- Modelled from the spec and the Conv2DKernel::forward call site
(conv2d/cuda_kernel.rs): the batched GEMM output element (b, o, p) with
weights strides [0, k, 1] (one filter bank broadcast over the batch) and
patches strides [k * n, n, 1], where k = chan_in * kernel * kernel and
n = h_out * w_out; sgemm_batch itself is not part of the excerpt. -/
def conv2dForwardGemm (op : Conv2DOp) (weights : Nat → ℚ) (inp : Nat → Nat → Nat → Nat → ℚ)
    (b o p : Nat) : ℚ :=
  (Finset.range (op.chan_in * (op.kernel * op.kernel))).sum fun l =>
    weights (o * (op.chan_in * (op.kernel * op.kernel)) + l) *
      unfoldPatches op inp
        (b * (op.chan_in * (op.kernel * op.kernel) * (op.h_out * op.w_out))
          + l * (op.h_out * op.w_out) + (p))

/-- The naive direct nested-loop convolution, following the reference
semantics stated by the spec: sum over channels and kernel offsets of
weight times the in-bounds input element, with out-of-bounds positions
contributing nothing. -/
def conv2dDirect (op : Conv2DOp) (weights : Nat → ℚ) (inp : Nat → Nat → Nat → Nat → ℚ)
    (b o oh ow : Nat) : ℚ :=
  (Finset.range op.chan_in).sum fun c =>
    (Finset.range op.kernel).sum fun k1 =>
      (Finset.range op.kernel).sum fun k2 =>
        match checked_sub (oh * op.stride + k1) op.padding,
              checked_sub (ow * op.stride + k2) op.padding with
        | some y, some x =>
            if y < op.h_in ∧ x < op.w_in then
              weights (((o * op.chan_in + c) * op.kernel + k1) * op.kernel + k2) * inp b c y x
            else 0
        | _, _ => 0

/-- Modelled from the spec: one batched GEMM with accumulation flag beta
(sgemm_batch of the matmul cuda kernel, not part of the excerpt): per batch
element, C becomes beta * C + A * B. -/
def gemmBatchAcc (kdim : Nat) (beta : ℚ) (A B C : Nat → Nat → Nat → ℚ) :
    Nat → Nat → Nat → ℚ :=
  fun b i j => beta * C b i j + (Finset.range kdim).sum fun l => A b i l * B b l j

/-- The data-gradient GEMM call of Conv2DKernel::backward
(conv2d/cuda_kernel.rs): img_g += filters * patches with beta one. -/
def convBackwardGradLhs (op : Conv2DOp) (filters patches gradLhs : Nat → Nat → Nat → ℚ) :
    Nat → Nat → Nat → ℚ :=
  gemmBatchAcc (op.chan_out * op.kernel * op.kernel) 1 filters patches gradLhs

/-- Modelled from the spec: the sum_transposed_filters device kernel of
Conv2DKernel::backward sums the per-batch weight-gradient copies into the
shared weight-gradient buffer, accumulating into its prior contents. -/
def convBackwardGradRhs (op : Conv2DOp) (gradF : Nat → Nat → ℚ) (gradRhs : Nat → ℚ) :
    Nat → ℚ :=
  fun i => gradRhs i + (Finset.range op.batch).sum fun b => gradF b i

/-- Concrete operation descriptor for the convolution witness. -/
def convOpW : Conv2DOp := ⟨1, 0, 1, 1, 1, 1, 1, 1, 1, 1⟩

/-- The WeightDecay optimizer option: L2 regularization folded into the
gradient, or decoupled decay applied after the normalized gradient. -/
inductive WeightDecay where
  | L2 (wd : ℚ)
  | Decoupled (wd : ℚ)

/-- The RMSpropConfig optimizer configuration. -/
structure RMSpropConfig where
  lr : ℚ
  alpha : ℚ
  eps : ℚ
  momentum : Option ℚ
  centered : Bool
  weight_decay : Option WeightDecay

/-- RMSpropKernel::update for Cpu (optim/rmsprop/cpu_kernel.rs), per element:
the loop body over one zipped (param, grad, square_avg, grad_avg, momentum)
tuple.  The element type is generic over a Float trait in the source; its
square root is taken as an abstract function argument here, which keeps the
placement of eps inside the square root argument visible.  Returns the updated
(param, square_avg, grad_avg, momentum). -/
def rmspropUpdateElem (sqrtF : ℚ → ℚ) (cfg : RMSpropConfig)
    (p g s_avg g_avg m : ℚ) : ℚ × ℚ × ℚ × ℚ :=
  let g1 := match cfg.weight_decay with
    | some (WeightDecay.L2 wd) => g + wd * p
    | _ => g
  let s_avg1 := s_avg + (1 - cfg.alpha) * (g1 * g1 - s_avg)
  let g_avg1 := if cfg.centered then g_avg + (1 - cfg.alpha) * (g1 - g_avg) else g_avg
  let avg := if cfg.centered then sqrtF (s_avg1 - g_avg1 ^ 2 + cfg.eps)
    else sqrtF (s_avg1 + cfg.eps)
  let g2 := g1 / avg
  let m1 := match cfg.momentum with
    | some u => m * u + g2
    | none => m
  let g3 := match cfg.momentum with
    | some _ => m1 * cfg.lr
    | none => g2 * cfg.lr
  let g4 := match cfg.weight_decay with
    | some (WeightDecay.Decoupled wd) => g3 + wd * cfg.lr * p
    | _ => g3
  (p - g4, s_avg1, g_avg1, m1)

/-- Shape and strides metadata of a device Storage (CudaArray). -/
structure CudaMeta where
  shape : List Nat
  strides : List Nat

/-- Modelled from the spec: Shape::strides of the shape algebra (its source is
not part of the excerpt) computes the default row-major contiguous strides:
each axis steps by the product of the extents after it. -/
def contigStrides : List Nat → List Nat
  | [] => []
  | _ :: ds => ds.prod :: contigStrides ds

/-- CmpKernel::forward for Cuda (cmp/cuda_kernels.rs): the returned Storage
carries the left operand shape and the default strides of that shape. -/
def cmpForward (lhs rhs : CudaMeta) : CudaMeta :=
  { shape := lhs.shape, strides := contigStrides lhs.shape }

/-- ScalarCmpKernel::forward for Cuda (cmp/cuda_kernels.rs). -/
def scalarCmpForward (lhs : CudaMeta) (scalar : ℚ) : CudaMeta :=
  { shape := lhs.shape, strides := contigStrides lhs.shape }

/-- ChooseKernel::forward for Cuda (choose/cuda_kernel.rs). -/
def chooseForward (cond lhs rhs : CudaMeta) : CudaMeta :=
  { shape := lhs.shape, strides := contigStrides lhs.shape }

/-- ReplaceDimKernel::forward for Cuda (select_and_gather/cuda_kernel.rs):
dst is the shape computed by the replace shape rule. -/
def gatherForward (inp idx : CudaMeta) (dst : List Nat) : CudaMeta :=
  { shape := dst, strides := contigStrides dst }

/-- RemoveDimKernel::forward for Cuda (select_and_gather/cuda_kernel.rs):
dst is the shape computed by the remove shape rule. -/
def selectForward (inp idx : CudaMeta) (dst : List Nat) : CudaMeta :=
  { shape := dst, strides := contigStrides dst }

/-- Modelled from the spec: reduction_output_strides of reduction_utils.rs is
not part of the excerpt; per the spec, strides of freshly allocated outputs
are always the default contiguous layout for the output shape, and the
physical element count is the shape product. -/
def reduction_output_strides (inp_strides : List Nat) (dst : List Nat) : Nat × List Nat :=
  (dst.prod, contigStrides dst)

/-- MinReduceKernel::forward for Cuda (min_to/cuda_kernel.rs): the returned
Storage carries dst and the strides computed by reduction_output_strides. -/
def minReduceForward (inp : CudaMeta) (dst : List Nat) : CudaMeta :=
  { shape := dst, strides := (reduction_output_strides inp.strides dst).2 }

/-- Modelled from the spec: the optimizer update driver (the trait plumbing of
src/optim is not part of the excerpt).  For every tracked parameter, identified
by a key paired with its value, the driver looks up the gradient by key; the
keys of parameters without a gradient entry are collected and reported as the
unused-parameters error, and the update applies the step rule only when no
parameter is missing a gradient. -/
def optimizerUpdate (stepF : ℚ → ℚ → ℚ) (params : List (Nat × ℚ))
    (grads : Nat → Option ℚ) : Except (List Nat) (List (Nat × ℚ)) :=
  let unused := (params.filter fun pv => (grads pv.1).isNone).map Prod.fst
  if unused = [] then
    Except.ok (params.map fun pv =>
      (pv.1, match grads pv.1 with
             | some g => stepF pv.2 g
             | none => pv.2))
  else
    Except.error unused

/-- The stride-normalization helper make_4d of the pool2d cpu kernel and the
conv2d cuda kernel: rank 3 strides get a leading zero batch stride, rank 4
strides pass through, and every other rank panics (modelled as none). -/
def make_4d (numDims : Nat) (strides : Nat → Nat) : Option (Fin 4 → Nat) :=
  match numDims with
  | 3 => some (strides4 0 (strides 0) (strides 1) (strides 2))
  | 4 => some (strides4 (strides 0) (strides 1) (strides 2) (strides 3))
  | _ => none

/-- The average pool forward entry point including the make_4d stride
normalization the kernel performs on both operand stride arrays. -/
def avgPool2dForwardSized (op : Pool2DOp) (ndI ndO : Nat) (istrides ostrides : Nat → Nat)
    (inp out : Nat → ℚ) : Option (Nat → ℚ) :=
  match make_4d ndI istrides, make_4d ndO ostrides with
  | some istr, some ostr => some (avgPool2dForward op istr ostr inp out)
  | _, _ => none

/-- The max pool backward entry point including the make_4d stride
normalization. -/
def maxPool2dBackwardSized (op : Pool2DOp) (ndI ndO : Nat) (istrides ostrides : Nat → Nat)
    (inp grad_inp out grad_out : Nat → ℚ) : Option (Nat → ℚ) :=
  match make_4d ndI istrides, make_4d ndO ostrides with
  | some istr, some ostr => some (maxPool2dBackward op istr ostr inp grad_inp out grad_out)
  | _, _ => none

/-- The process-wide compiled-kernel cache of the cuda device, keyed by
(module name, function name), per the device contract of the spec. -/
structure DevState where
  loaded : List (String × String)

/-- dev.has_func: whether a (module, function) key is cached. -/
def hasFunc (st : DevState) (m f : String) : Bool := st.loaded.contains (m, f)

/-- dev.load_ptx: registers every listed function of a module in the cache. -/
def loadPtx (st : DevState) (m : String) (fns : List String) : DevState :=
  ⟨st.loaded ++ fns.map fun f => (m, f)⟩

/-- dev.get_func: fetches a cached function, or none when it was never
loaded; the backward kernels unwrap this directly, so none means a panic. -/
def getFunc (st : DevState) (m f : String) : Option Unit :=
  if hasFunc st m f then some () else none

/-- Module name of the f32 min-reduce kernels (min_to/cuda_kernel.rs). -/
def minToModName : String := "min_f32"

/-- Function names of the f32 min-reduce kernels, in FNS order. -/
def minToFwdName : String := "min_to_fwd_f32"

/-- Backward function name of the f32 min-reduce kernels. -/
def minToBwdName : String := "min_to_bwd_f32"

/-- Fill function name of the f32 min-reduce kernels. -/
def minToFillName : String := "fill_with_f32"

/-- Module name of the f32 choose kernels (choose/cuda_kernel.rs). -/
def chooseModName : String := "choose_f32"

/-- Forward function name of the f32 choose kernels. -/
def chooseFwdName : String := "choose_fwd_f32"

/-- Backward function name of the f32 choose kernels. -/
def chooseBwdName : String := "choose_bwd_f32"

/-- Module name of the f32 select kernels (select_and_gather/cuda_kernel.rs). -/
def selectModName : String := "select_f32"

/-- Forward function name of the f32 select kernels. -/
def selectFwdName : String := "select_fwd_f32"

/-- Backward function name of the f32 select kernels. -/
def selectBwdName : String := "select_bwd_f32"

/-- The lazy module load performed by MinReduceKernel::forward: when FNS[0]
is not cached, load the whole module function list. -/
def minToForwardLoad (st : DevState) : DevState :=
  if hasFunc st minToModName minToFwdName then st
  else loadPtx st minToModName [minToFwdName, minToBwdName, minToFillName]

/-- MinReduceKernel::backward fetches its function with an unconditional
unwrap and never loads the module. -/
def minToBackwardFetch (st : DevState) : Option Unit :=
  getFunc st minToModName minToBwdName

/-- The lazy module load performed by ChooseKernel::forward. -/
def chooseForwardLoad (st : DevState) : DevState :=
  if hasFunc st chooseModName chooseFwdName then st
  else loadPtx st chooseModName [chooseFwdName, chooseBwdName]

/-- ChooseKernel::backward fetches its function with an unconditional unwrap
and never loads the module. -/
def chooseBackwardFetch (st : DevState) : Option Unit :=
  getFunc st chooseModName chooseBwdName

/-- The lazy module load performed by RemoveDimKernel::forward. -/
def selectForwardLoad (st : DevState) : DevState :=
  if hasFunc st selectModName selectFwdName then st
  else loadPtx st selectModName [selectFwdName, selectBwdName]

/-- RemoveDimKernel::backward fetches its function with an unconditional
unwrap and never loads the module. -/
def selectBackwardFetch (st : DevState) : Option Unit :=
  getFunc st selectModName selectBwdName

/-- The cache state of a fresh process: nothing loaded. -/
def freshDev : DevState := ⟨[]⟩

/-- A left fold whose every step adds a state-independent quantity to the
accumulator equals the initial value plus the sum of those quantities. -/
theorem foldl_add_eq_sum (c : Nat → ℚ) :
    ∀ (l : List Nat) (step : ℚ → Nat → ℚ),
      (∀ t e, e ∈ l → step t e = t + c e) → ∀ t0 : ℚ, l.foldl step t0 = t0 + (l.map c).sum := by
  intro l
  induction l with
  | nil => intro step h t0; simp
  | cons a l ih =>
    intro step h t0
    rw [List.foldl_cons, List.map_cons, List.sum_cons,
      ih step (fun t e he => h t e (List.mem_cons_of_mem a he)) (step t0 a),
      h t0 a (List.mem_cons_self a l)]
    ring

/-- Buffer version of foldl_add_eq_sum: a fold over buffer updates whose every
step adds a state-independent delta function pointwise. -/
theorem foldl_addf_eq (δ : Nat → Nat → ℚ) :
    ∀ (l : List Nat) (step : (Nat → ℚ) → Nat → (Nat → ℚ)),
      (∀ g e, e ∈ l → ∀ j, step g e j = g j + δ e j) →
      ∀ (g : Nat → ℚ) (j : Nat), l.foldl step g j = g j + (l.map (fun e => δ e j)).sum := by
  intro l
  induction l with
  | nil => intro step h g j; simp
  | cons a l ih =>
    intro step h g j
    rw [List.foldl_cons, List.map_cons, List.sum_cons,
      ih step (fun g e he j => h g e (List.mem_cons_of_mem a he) j) (step g a) j,
      h g a (List.mem_cons_self a l) j]
    ring

/-- foldl_addf_eq specialised to folds over List.range, stated with rsum. -/
theorem foldl_range_addf (n : Nat) (step : (Nat → ℚ) → Nat → (Nat → ℚ)) (δ : Nat → Nat → ℚ)
    (h : ∀ g e, e < n → ∀ j, step g e j = g j + δ e j) (g : Nat → ℚ) (j : Nat) :
    (List.range n).foldl step g j = g j + rsum n (fun e => δ e j) :=
  foldl_addf_eq δ (List.range n) step (fun g e he j => h g e (List.mem_range.mp he) j) g j

/-- foldl_add_eq_sum specialised to folds over List.range, stated with rsum. -/
theorem foldl_range_add (n : Nat) (step : ℚ → Nat → ℚ) (c : Nat → ℚ)
    (h : ∀ t e, e < n → step t e = t + c e) (t0 : ℚ) :
    (List.range n).foldl step t0 = t0 + rsum n c :=
  foldl_add_eq_sum c (List.range n) step (fun t e he => h t e (List.mem_range.mp he)) t0

/-- The innermost step of the max/min pool backward loops adds, pointwise, the
full output gradient exactly at the covered offset when the input value there
ties with the recorded output value, and nothing anywhere else. -/
theorem pool_tie_step (op : Pool2DOp) (istr : Fin 4 → Nat) (inp : Nat → ℚ) (vo go : ℚ)
    (b c oh ow k1 k2 : Nat) (g : Nat → ℚ) (j : Nat) :
    (match checked_sub (oh * op.stride + k1) op.padding,
           checked_sub (ow * op.stride + k2) op.padding with
     | some y, some x =>
         if y < op.h_in ∧ x < op.w_in then
           if inp (idx4 istr b c y x) = vo then
             Function.update g (idx4 istr b c y x) (g (idx4 istr b c y x) + go)
           else g
         else g
     | _, _ => g) j
      = g j + (match poolIdx? op istr b c oh ow k1 k2 with
               | some i => if inp i = vo ∧ j = i then go else 0
               | none => 0) := by
  unfold poolIdx? checked_sub
  by_cases h1 : op.padding ≤ oh * op.stride + k1
  · by_cases h2 : op.padding ≤ ow * op.stride + k2
    · simp only [if_pos h1, if_pos h2]
      by_cases hb : oh * op.stride + k1 - op.padding < op.h_in ∧
          ow * op.stride + k2 - op.padding < op.w_in
      · simp only [if_pos hb]
        by_cases ht : inp (idx4 istr b c (oh * op.stride + k1 - op.padding)
            (ow * op.stride + k2 - op.padding)) = vo
        · by_cases hj : j = idx4 istr b c (oh * op.stride + k1 - op.padding)
              (ow * op.stride + k2 - op.padding)
          · subst hj; simp [ht]
          · simp [Function.update_apply, ht, hj]
        · simp [ht]
      · simp [hb]
    · simp [h2]
  · simp [h1]

/-- The innermost step of the average pool backward loop adds, pointwise, the
scaled output gradient exactly at the covered offset, and nothing elsewhere. -/
theorem pool_add_step (op : Pool2DOp) (istr : Fin 4 → Nat) (v : ℚ)
    (b c oh ow k1 k2 : Nat) (g : Nat → ℚ) (j : Nat) :
    (match checked_sub (oh * op.stride + k1) op.padding,
           checked_sub (ow * op.stride + k2) op.padding with
     | some y, some x =>
         if y < op.h_in ∧ x < op.w_in then
           Function.update g (idx4 istr b c y x) (g (idx4 istr b c y x) + v)
         else g
     | _, _ => g) j
      = g j + (match poolIdx? op istr b c oh ow k1 k2 with
               | some i => if j = i then v else 0
               | none => 0) := by
  unfold poolIdx? checked_sub
  by_cases h1 : op.padding ≤ oh * op.stride + k1
  · by_cases h2 : op.padding ≤ ow * op.stride + k2
    · simp only [if_pos h1, if_pos h2]
      by_cases hb : oh * op.stride + k1 - op.padding < op.h_in ∧
          ow * op.stride + k2 - op.padding < op.w_in
      · simp only [if_pos hb]
        by_cases hj : j = idx4 istr b c (oh * op.stride + k1 - op.padding)
            (ow * op.stride + k2 - op.padding)
        · subst hj; simp
        · simp [Function.update_apply, hj]
      · simp [hb]
    · simp [h2]
  · simp [h1]

/-- The innermost step of the average pool forward accumulation adds the
in-bounds input value and skips out-of-bounds positions. -/
theorem pool_sum_step (op : Pool2DOp) (istr : Fin 4 → Nat) (inp : Nat → ℚ)
    (b c oh ow k1 k2 : Nat) (t : ℚ) :
    (match checked_sub (oh * op.stride + k1) op.padding,
           checked_sub (ow * op.stride + k2) op.padding with
     | some y, some x =>
         if y < op.h_in ∧ x < op.w_in then t + inp (idx4 istr b c y x) else t
     | _, _ => t)
      = t + (match poolIdx? op istr b c oh ow k1 k2 with
             | some i => inp i
             | none => 0) := by
  unfold poolIdx? checked_sub
  by_cases h1 : op.padding ≤ oh * op.stride + k1
  · by_cases h2 : op.padding ≤ ow * op.stride + k2
    · simp only [if_pos h1, if_pos h2]
      by_cases hb : oh * op.stride + k1 - op.padding < op.h_in ∧
          ow * op.stride + k2 - op.padding < op.w_in
      · simp [hb]
      · simp [hb]
    · simp [h2]
  · simp [h1]

/-- Closed form of the max pool backward kernel: the result is the prior
gradient buffer plus the sum of the tie-rule contributions. -/
theorem maxPool2dBackward_eq (op : Pool2DOp) (istr ostr : Fin 4 → Nat)
    (inp out gout : Nat → ℚ) (gi : Nat → ℚ) (j : Nat) :
    maxPool2dBackward op istr ostr inp gi out gout j
      = gi j + tieContrib op istr ostr inp out gout j := by
  unfold maxPool2dBackward tieContrib
  refine foldl_range_addf op.batch _
    (fun b j => rsum op.chan fun c => rsum op.h_out fun oh => rsum op.w_out fun ow =>
      rsum op.kernel fun k1 => rsum op.kernel fun k2 =>
        tieDelta op istr ostr inp out gout b c oh ow k1 k2 j) ?_ gi j
  intro g b _ j
  refine foldl_range_addf op.chan _
    (fun c j => rsum op.h_out fun oh => rsum op.w_out fun ow =>
      rsum op.kernel fun k1 => rsum op.kernel fun k2 =>
        tieDelta op istr ostr inp out gout b c oh ow k1 k2 j) ?_ g j
  intro g c _ j
  refine foldl_range_addf op.h_out _
    (fun oh j => rsum op.w_out fun ow => rsum op.kernel fun k1 => rsum op.kernel fun k2 =>
      tieDelta op istr ostr inp out gout b c oh ow k1 k2 j) ?_ g j
  intro g oh _ j
  refine foldl_range_addf op.w_out _
    (fun ow j => rsum op.kernel fun k1 => rsum op.kernel fun k2 =>
      tieDelta op istr ostr inp out gout b c oh ow k1 k2 j) ?_ g j
  intro g ow _ j
  refine foldl_range_addf op.kernel _
    (fun k1 j => rsum op.kernel fun k2 =>
      tieDelta op istr ostr inp out gout b c oh ow k1 k2 j) ?_ g j
  intro g k1 _ j
  refine foldl_range_addf op.kernel _
    (fun k2 j => tieDelta op istr ostr inp out gout b c oh ow k1 k2 j) ?_ g j
  intro g k2 _ j
  simp only [tieDelta]
  exact pool_tie_step op istr inp (out (idx4 ostr b c oh ow)) (gout (idx4 ostr b c oh ow))
    b c oh ow k1 k2 g j

/-- The min pool backward kernel has the same loop body as the max pool
backward kernel. -/
theorem minPool2dBackward_eq_max : @minPool2dBackward = @maxPool2dBackward := rfl

/-- Closed form of the average pool backward kernel: the result is the prior
gradient buffer plus the sum of the per-position scaled contributions. -/
theorem avgPool2dBackward_eq (op : Pool2DOp) (istr ostr : Fin 4 → Nat)
    (inp out gout : Nat → ℚ) (gi : Nat → ℚ) (j : Nat) :
    avgPool2dBackward op istr ostr inp gi out gout j
      = gi j + avgContrib op istr ostr gout j := by
  unfold avgPool2dBackward avgContrib
  refine foldl_range_addf op.batch _
    (fun b j => rsum op.chan fun c => rsum op.h_out fun oh => rsum op.w_out fun ow =>
      rsum op.kernel fun k1 => rsum op.kernel fun k2 =>
        avgDelta op istr ostr gout b c oh ow k1 k2 j) ?_ gi j
  intro g b _ j
  refine foldl_range_addf op.chan _
    (fun c j => rsum op.h_out fun oh => rsum op.w_out fun ow =>
      rsum op.kernel fun k1 => rsum op.kernel fun k2 =>
        avgDelta op istr ostr gout b c oh ow k1 k2 j) ?_ g j
  intro g c _ j
  refine foldl_range_addf op.h_out _
    (fun oh j => rsum op.w_out fun ow => rsum op.kernel fun k1 => rsum op.kernel fun k2 =>
      avgDelta op istr ostr gout b c oh ow k1 k2 j) ?_ g j
  intro g oh _ j
  refine foldl_range_addf op.w_out _
    (fun ow j => rsum op.kernel fun k1 => rsum op.kernel fun k2 =>
      avgDelta op istr ostr gout b c oh ow k1 k2 j) ?_ g j
  intro g ow _ j
  refine foldl_range_addf op.kernel _
    (fun k1 j => rsum op.kernel fun k2 =>
      avgDelta op istr ostr gout b c oh ow k1 k2 j) ?_ g j
  intro g k1 _ j
  refine foldl_range_addf op.kernel _
    (fun k2 j => avgDelta op istr ostr gout b c oh ow k1 k2 j) ?_ g j
  intro g k2 _ j
  simp only [avgDelta]
  exact pool_add_step op istr
    (gout (idx4 ostr b c oh ow) / ((op.kernel * op.kernel : ℕ) : ℚ)) b c oh ow k1 k2 g j

/-- Min pool backward in closed form, by identity of the loop bodies. -/
theorem minPool2dBackward_eq (op : Pool2DOp) (istr ostr : Fin 4 → Nat)
    (inp out gout : Nat → ℚ) (gi : Nat → ℚ) (j : Nat) :
    minPool2dBackward op istr ostr inp gi out gout j
      = gi j + tieContrib op istr ostr inp out gout j := by
  rw [minPool2dBackward_eq_max]
  exact maxPool2dBackward_eq op istr ostr inp out gout gi j

/-- C2: Both the max pool and the min pool backward kernels add, to every
in-bounds window position whose forward input value is exactly equal to the
recorded output value of that window, the full upstream gradient of that
window.  The closed form sums tieDelta over every (window, kernel offset)
pair; each pair that ties contributes the whole window gradient, so K tying
positions of one window each receive the entire upstream gradient. -/
theorem maxmin_pool_backward_full_gradient_to_ties (op : Pool2DOp)
    (istr ostr : Fin 4 → Nat) (inp grad_inp out grad_out : Nat → ℚ) (j : Nat) :
    maxPool2dBackward op istr ostr inp grad_inp out grad_out j
        = grad_inp j + tieContrib op istr ostr inp out grad_out j
      ∧ minPool2dBackward op istr ostr inp grad_inp out grad_out j
        = grad_inp j + tieContrib op istr ostr inp out grad_out j :=
  ⟨maxPool2dBackward_eq op istr ostr inp out grad_out grad_inp j,
   minPool2dBackward_eq op istr ostr inp out grad_out grad_inp j⟩

/-- Summing a constant over the positions satisfying a boolean test counts the
satisfying positions. -/
theorem sum_map_bool_const (l : List Nat) (p : Nat → Bool) (C : ℚ) :
    (l.map fun e => if p e then C else 0).sum = ((l.countP p : ℕ) : ℚ) * C := by
  induction l with
  | nil => simp
  | cons a l ih =>
    rw [List.map_cons, List.sum_cons, ih, List.countP_cons]
    cases h : p a
    · simp [h]
    · simp only [h, if_true]
      push_cast
      ring

/-- Factoring a constant out of a sum of natural multiples. -/
theorem sum_map_natmul (l : List Nat) (cnt : Nat → Nat) (C : ℚ) :
    (l.map fun e => ((cnt e : ℕ) : ℚ) * C).sum = (((l.map cnt).sum : ℕ) : ℚ) * C := by
  induction l with
  | nil => simp
  | cons a l ih =>
    rw [List.map_cons, List.sum_cons, ih, List.map_cons, List.sum_cons]
    push_cast
    ring

/-- The per-position amount of the average pool backward kernel, rephrased as
a boolean test on the in-bounds option. -/
theorem avgWindowAdd_isSome (op : Pool2DOp) (istr ostr : Fin 4 → Nat) (gout : Nat → ℚ)
    (b c oh ow k1 k2 : Nat) :
    avgWindowAdd op istr ostr gout b c oh ow k1 k2
      = if (poolIdx? op istr b c oh ow k1 k2).isSome
        then gout (idx4 ostr b c oh ow) / ((op.kernel * op.kernel : ℕ) : ℚ) else 0 := by
  unfold avgWindowAdd
  cases poolIdx? op istr b c oh ow k1 k2 <;> simp

/-- Per-window mass of the average pool backward kernel: the per-position
amounts over one window sum to the in-bounds count times the scaled gradient. -/
theorem avgWindowAdd_mass (op : Pool2DOp) (istr ostr : Fin 4 → Nat) (gout : Nat → ℚ)
    (b c oh ow : Nat) :
    (rsum op.kernel fun k1 => rsum op.kernel fun k2 =>
        avgWindowAdd op istr ostr gout b c oh ow k1 k2)
      = ((inBoundsCount op istr b c oh ow : ℕ) : ℚ) * gout (idx4 ostr b c oh ow)
          / ((op.kernel * op.kernel : ℕ) : ℚ) := by
  have h1 : ∀ k1, (rsum op.kernel fun k2 => avgWindowAdd op istr ostr gout b c oh ow k1 k2)
      = ((((List.range op.kernel).countP fun k2 =>
            (poolIdx? op istr b c oh ow k1 k2).isSome) : ℕ) : ℚ)
        * (gout (idx4 ostr b c oh ow) / ((op.kernel * op.kernel : ℕ) : ℚ)) := by
    intro k1
    unfold rsum
    simp only [avgWindowAdd_isSome]
    exact sum_map_bool_const (List.range op.kernel)
      (fun k2 => (poolIdx? op istr b c oh ow k1 k2).isSome) _
  simp only [h1]
  unfold rsum
  rw [sum_map_natmul (List.range op.kernel)
    (fun k1 => (List.range op.kernel).countP fun k2 => (poolIdx? op istr b c oh ow k1 k2).isSome)
    (gout (idx4 ostr b c oh ow) / ((op.kernel * op.kernel : ℕ) : ℚ)), mul_div_assoc]
  rfl

/-- The slot-wise delta of the average pool backward kernel places the
per-position amount exactly at the covered offset. -/
theorem avgDelta_slot (op : Pool2DOp) (istr ostr : Fin 4 → Nat) (gout : Nat → ℚ)
    (b c oh ow k1 k2 j : Nat) :
    avgDelta op istr ostr gout b c oh ow k1 k2 j
      = if poolIdx? op istr b c oh ow k1 k2 = some j
        then gout (idx4 ostr b c oh ow) / ((op.kernel * op.kernel : ℕ) : ℚ) else 0 := by
  unfold avgDelta
  cases h : poolIdx? op istr b c oh ow k1 k2
  · simp
  · rename_i i
    by_cases hji : j = i
    · simp [hji]
    · simp [hji, Ne.symm hji]

/-- C5: The average pool backward kernel adds exactly grad_out / kernel_area to
every in-bounds window position and nothing to out-of-bounds positions, so the
mass distributed per window is the output gradient times the in-bounds count
over the full kernel area. -/
theorem avgpool_backward_per_window_mass (op : Pool2DOp) (istr ostr : Fin 4 → Nat)
    (inp grad_inp out grad_out : Nat → ℚ) (j : Nat) (b c oh ow k1 k2 j2 : Nat) :
    avgPool2dBackward op istr ostr inp grad_inp out grad_out j
        = grad_inp j + avgContrib op istr ostr grad_out j
      ∧ avgDelta op istr ostr grad_out b c oh ow k1 k2 j2
        = (if poolIdx? op istr b c oh ow k1 k2 = some j2
           then grad_out (idx4 ostr b c oh ow) / ((op.kernel * op.kernel : ℕ) : ℚ) else 0)
      ∧ (rsum op.kernel fun q1 => rsum op.kernel fun q2 =>
            avgWindowAdd op istr ostr grad_out b c oh ow q1 q2)
        = ((inBoundsCount op istr b c oh ow : ℕ) : ℚ) * grad_out (idx4 ostr b c oh ow)
            / ((op.kernel * op.kernel : ℕ) : ℚ) :=
  ⟨avgPool2dBackward_eq op istr ostr inp out grad_out grad_inp j,
   avgDelta_slot op istr ostr grad_out b c oh ow k1 k2 j2,
   avgWindowAdd_mass op istr ostr grad_out b c oh ow⟩

/-- Folding over a flattened list equals the nested fold. -/
theorem foldl_flatMap {α β σ : Type} (l : List α) (f : α → List β) (step : σ → β → σ) :
    ∀ init : σ, (l.flatMap f).foldl step init
      = l.foldl (fun s a => (f a).foldl step s) init := by
  induction l with
  | nil => intro init; rfl
  | cons a l ih => intro init; rw [List.flatMap_cons, List.foldl_append, List.foldl_cons, ih]

/-- The window accumulation loop of the average pool forward kernel computes
the in-bounds window sum. -/
theorem poolWindowSum_foldl (op : Pool2DOp) (istr : Fin 4 → Nat) (inp : Nat → ℚ)
    (b c oh ow : Nat) :
    ((List.range op.kernel).foldl (fun (tmp : ℚ) k1 =>
      (List.range op.kernel).foldl (fun tmp k2 =>
        match checked_sub (oh * op.stride + k1) op.padding,
              checked_sub (ow * op.stride + k2) op.padding with
        | some y, some x =>
            if y < op.h_in ∧ x < op.w_in then tmp + inp (idx4 istr b c y x) else tmp
        | _, _ => tmp) tmp) 0)
      = rsum op.kernel fun k1 => rsum op.kernel fun k2 =>
          match poolIdx? op istr b c oh ow k1 k2 with
          | some i => inp i
          | none => 0 := by
  have hstep : ∀ (t : ℚ) (k1 : Nat), k1 < op.kernel →
      ((List.range op.kernel).foldl (fun (tmp : ℚ) k2 =>
        match checked_sub (oh * op.stride + k1) op.padding,
              checked_sub (ow * op.stride + k2) op.padding with
        | some y, some x =>
            if y < op.h_in ∧ x < op.w_in then tmp + inp (idx4 istr b c y x) else tmp
        | _, _ => tmp) t)
        = t + rsum op.kernel fun k2 =>
            match poolIdx? op istr b c oh ow k1 k2 with
            | some i => inp i
            | none => 0 := by
    intro t k1 _
    exact foldl_range_add op.kernel _ _
      (fun t2 k2 _ => pool_sum_step op istr inp b c oh ow k1 k2 t2) t
  exact (foldl_range_add op.kernel _ _ hstep 0).trans (zero_add _)

/-- The average pool forward kernel as a single fold of window writes. -/
theorem avgPool2dForward_flat (op : Pool2DOp) (istr ostr : Fin 4 → Nat)
    (inp out : Nat → ℚ) :
    avgPool2dForward op istr ostr inp out
      = (poolWindows op).foldl (fun ob q =>
          Function.update ob (idx4 ostr q.1 q.2.1 q.2.2.1 q.2.2.2)
            (avgWindowVal op istr inp q.1 q.2.1 q.2.2.1 q.2.2.2)) out := by
  unfold avgPool2dForward poolWindows avgWindowVal
  simp only [foldl_flatMap, List.foldl_map, poolWindowSum_foldl]

/-- A fold of keyed writes leaves slots with no matching key unchanged. -/
theorem foldl_update_notmem {α : Type} (key : α → Nat) (val : α → ℚ) :
    ∀ (l : List α) (g : Nat → ℚ) (j : Nat), (∀ a ∈ l, key a ≠ j) →
      l.foldl (fun g a => Function.update g (key a) (val a)) g j = g j := by
  intro l
  induction l with
  | nil => intro g j _; rfl
  | cons a l ih =>
    intro g j h
    rw [List.foldl_cons, ih _ j (fun b hb => h b (List.mem_cons_of_mem a hb))]
    exact Function.update_noteq (Ne.symm (h a (List.mem_cons_self a l))) _ _

/-- A fold of keyed writes with pairwise-distinct keys stores, at the key of
every visited element, the value written for that element. -/
theorem foldl_update_pairwise {α : Type} (key : α → Nat) (val : α → ℚ) :
    ∀ (l : List α), l.Pairwise (fun a b => key a ≠ key b) →
      ∀ (g : Nat → ℚ) (e : α), e ∈ l →
        l.foldl (fun g a => Function.update g (key a) (val a)) g (key e) = val e := by
  intro l
  induction l with
  | nil => intro _ g e he; cases he
  | cons a l ih =>
    intro hp g e he
    rw [List.pairwise_cons] at hp
    rw [List.foldl_cons]
    rcases List.mem_cons.mp he with rfl | he2
    · rw [foldl_update_notmem key val l _ (key e) (fun b hb => Ne.symm (hp.1 b hb))]
      exact Function.update_same _ _ _
    · exact ih hp.2 _ e he2

/-- Every in-range window occurs in the window list. -/
theorem mem_poolWindows (op : Pool2DOp) (b c oh ow : Nat)
    (hb : b < op.batch) (hc : c < op.chan) (hoh : oh < op.h_out) (how : ow < op.w_out) :
    (b, c, oh, ow) ∈ poolWindows op := by
  unfold poolWindows
  simp only [List.mem_flatMap, List.mem_map, List.mem_range]
  exact ⟨b, hb, c, hc, oh, hoh, ow, how, rfl⟩

/-- C4: When the output offsets of distinct windows are distinct, every output
slot written by the average pool forward kernel holds the sum of the in-bounds
window elements divided by the full kernel area kernel * kernel, regardless of
how many window positions fell out of bounds. -/
theorem avgpool_forward_full_area_divisor (op : Pool2DOp) (istr ostr : Fin 4 → Nat)
    (inp out : Nat → ℚ)
    (hinj : (poolWindows op).Pairwise fun q q2 =>
      idx4 ostr q.1 q.2.1 q.2.2.1 q.2.2.2 ≠ idx4 ostr q2.1 q2.2.1 q2.2.2.1 q2.2.2.2)
    (b c oh ow : Nat)
    (hb : b < op.batch) (hc : c < op.chan) (hoh : oh < op.h_out) (how : ow < op.w_out) :
    avgPool2dForward op istr ostr inp out (idx4 ostr b c oh ow)
      = avgWindowVal op istr inp b c oh ow := by
  rw [avgPool2dForward_flat]
  exact foldl_update_pairwise
    (fun q => idx4 ostr q.1 q.2.1 q.2.2.1 q.2.2.2)
    (fun q => avgWindowVal op istr inp q.1 q.2.1 q.2.2.1 q.2.2.2)
    (poolWindows op) hinj out (b, c, oh, ow)
    (mem_poolWindows op b c oh ow hb hc hoh how)

/-- Witness for C4 on a concrete 1x1x1x1 input averaged with kernel 2, stride
1, padding 1: only one window position is in bounds, yet the divisor is the
full kernel area 4, giving 3 / 4 for input value 3. -/
theorem avgpool_forward_full_area_divisor_witness :
    avgPool2dForward ⟨2, 1, 1, 1, 1, 1, 1, 2, 2⟩ (strides4 1 1 1 1) (strides4 4 4 2 1)
        (fun _ => 3) (fun _ => 0) (idx4 (strides4 4 4 2 1) 0 0 0 0) = 3 / 4 := by
  rw [avgpool_forward_full_area_divisor ⟨2, 1, 1, 1, 1, 1, 1, 2, 2⟩
    (strides4 1 1 1 1) (strides4 4 4 2 1)
    (fun _ => 3) (fun _ => 0) (by decide) 0 0 0 0
    (by decide) (by decide) (by decide) (by decide)]
  norm_num [avgWindowVal, rsum, List.range_succ, poolIdx?, checked_sub, idx4, strides4]

/-- C3: Every backward kernel accumulates into the pre-existing gradient
buffer: starting from prior contents g0 gives g0 plus the result starting
from an all-zero buffer, for the three cpu pooling backward kernels and for
the two conv2d backward accumulation paths. -/
theorem backward_accumulates_into_existing_gradients (op : Pool2DOp) (cop : Conv2DOp)
    (istr ostr : Fin 4 → Nat) (inp out gout g0 : Nat → ℚ)
    (filters patches gL0 : Nat → Nat → Nat → ℚ) (gF : Nat → Nat → ℚ) (gR0 : Nat → ℚ)
    (j b i k : Nat) :
    avgPool2dBackward op istr ostr inp g0 out gout j
        = g0 j + avgPool2dBackward op istr ostr inp (fun _ => 0) out gout j
      ∧ maxPool2dBackward op istr ostr inp g0 out gout j
        = g0 j + maxPool2dBackward op istr ostr inp (fun _ => 0) out gout j
      ∧ minPool2dBackward op istr ostr inp g0 out gout j
        = g0 j + minPool2dBackward op istr ostr inp (fun _ => 0) out gout j
      ∧ convBackwardGradLhs cop filters patches gL0 b i k
        = gL0 b i k + convBackwardGradLhs cop filters patches (fun _ _ _ => 0) b i k
      ∧ convBackwardGradRhs cop gF gR0 j
        = gR0 j + convBackwardGradRhs cop gF (fun _ => 0) j := by
  refine ⟨?_, ?_, ?_, ?_, ?_⟩
  · rw [avgPool2dBackward_eq, avgPool2dBackward_eq]; ring
  · rw [maxPool2dBackward_eq, maxPool2dBackward_eq]; ring
  · rw [minPool2dBackward_eq, minPool2dBackward_eq]; ring
  · unfold convBackwardGradLhs gemmBatchAcc; ring
  · unfold convBackwardGradRhs; ring

/-- Splitting a sum over an offset range. -/
theorem sum_range_add (f : Nat → ℚ) (a : Nat) :
    ∀ b, (Finset.range (a + b)).sum f
      = (Finset.range a).sum f + (Finset.range b).sum fun j => f (a + j) := by
  intro b
  induction b with
  | zero => simp
  | succ b ih =>
    rw [Nat.add_succ, Finset.sum_range_succ, ih, Finset.sum_range_succ]
    ring

/-- A sum over a product range as a double sum over the factored index. -/
theorem sum_range_mul (m : Nat) (f : Nat → ℚ) :
    ∀ n, (Finset.range (n * m)).sum f
      = (Finset.range n).sum fun i => (Finset.range m).sum fun j => f (i * m + j) := by
  intro n
  induction n with
  | zero => simp
  | succ n ih =>
    rw [Finset.sum_range_succ, ← ih, Nat.succ_mul, sum_range_add]

/-- Decoding the flat patches offset of the unfold layout at an in-range
structured index recovers the structured components. -/
theorem unfoldPatches_at (op : Conv2DOp) (inp : Nat → Nat → Nat → Nat → ℚ)
    (b c k1 k2 oh ow : Nat)
    (hc : c < op.chan_in) (hk1 : k1 < op.kernel) (hk2 : k2 < op.kernel)
    (hoh : oh < op.h_out) (how : ow < op.w_out) :
    unfoldPatches op inp
      (b * (op.chan_in * (op.kernel * op.kernel) * (op.h_out * op.w_out))
        + (c * (op.kernel * op.kernel) + (k1 * op.kernel + k2)) * (op.h_out * op.w_out)
        + (oh * op.w_out + ow))
    = match checked_sub (oh * op.stride + k1) op.padding,
            checked_sub (ow * op.stride + k2) op.padding with
      | some y, some x => if y < op.h_in ∧ x < op.w_in then inp b c y x else 0
      | _, _ => 0 := by
  have hw : 0 < op.w_out := Nat.zero_lt_of_lt how
  have hn : 0 < op.h_out * op.w_out := Nat.mul_pos (Nat.zero_lt_of_lt hoh) hw
  have hK : 0 < op.kernel := Nat.zero_lt_of_lt hk1
  have hkk : 0 < op.kernel * op.kernel := Nat.mul_pos hK hK
  have hckk : 0 < op.chan_in * (op.kernel * op.kernel) :=
    Nat.mul_pos (Nat.zero_lt_of_lt hc) hkk
  have hp : oh * op.w_out + ow < op.h_out * op.w_out := by
    calc oh * op.w_out + ow < oh * op.w_out + op.w_out := Nat.add_lt_add_left how _
    _ = (oh + 1) * op.w_out := by ring
    _ ≤ op.h_out * op.w_out := Nat.mul_le_mul_right _ hoh
  have hr : k1 * op.kernel + k2 < op.kernel * op.kernel := by
    calc k1 * op.kernel + k2 < k1 * op.kernel + op.kernel := Nat.add_lt_add_left hk2 _
    _ = (k1 + 1) * op.kernel := by ring
    _ ≤ op.kernel * op.kernel := Nat.mul_le_mul_right _ hk1
  have hl : c * (op.kernel * op.kernel) + (k1 * op.kernel + k2)
      < op.chan_in * (op.kernel * op.kernel) := by
    calc c * (op.kernel * op.kernel) + (k1 * op.kernel + k2)
        < c * (op.kernel * op.kernel) + op.kernel * op.kernel := Nat.add_lt_add_left hr _
    _ = (c + 1) * (op.kernel * op.kernel) := by ring
    _ ≤ op.chan_in * (op.kernel * op.kernel) := Nat.mul_le_mul_right _ hc
  have e1 : (oh * op.w_out + ow) / op.w_out = oh := by
    rw [show oh * op.w_out + ow = ow + op.w_out * oh from by ring,
      Nat.add_mul_div_left _ _ hw, Nat.div_eq_of_lt how, Nat.zero_add]
  have e2 : (oh * op.w_out + ow) % op.w_out = ow := by
    rw [show oh * op.w_out + ow = ow + op.w_out * oh from by ring,
      Nat.add_mul_mod_self_left, Nat.mod_eq_of_lt how]
  simp only [unfoldPatches]
  set L := c * (op.kernel * op.kernel) + (k1 * op.kernel + k2) with hL
  have e3 : L / (op.kernel * op.kernel) = c := by
    rw [hL, show c * (op.kernel * op.kernel) + (k1 * op.kernel + k2)
        = (k1 * op.kernel + k2) + op.kernel * op.kernel * c from by ring,
      Nat.add_mul_div_left _ _ hkk, Nat.div_eq_of_lt hr, Nat.zero_add]
  have e4 : L % (op.kernel * op.kernel) = k1 * op.kernel + k2 := by
    rw [hL, show c * (op.kernel * op.kernel) + (k1 * op.kernel + k2)
        = (k1 * op.kernel + k2) + op.kernel * op.kernel * c from by ring,
      Nat.add_mul_mod_self_left, Nat.mod_eq_of_lt hr]
  have e5 : (k1 * op.kernel + k2) / op.kernel = k1 := by
    rw [show k1 * op.kernel + k2 = k2 + op.kernel * k1 from by ring,
      Nat.add_mul_div_left _ _ hK, Nat.div_eq_of_lt hk2, Nat.zero_add]
  have e6 : L % op.kernel = k2 := by
    rw [hL, show c * (op.kernel * op.kernel) + (k1 * op.kernel + k2)
        = k2 + op.kernel * (c * op.kernel + k1) from by ring,
      Nat.add_mul_mod_self_left, Nat.mod_eq_of_lt hk2]
  have e7 : (b * (op.chan_in * (op.kernel * op.kernel) * (op.h_out * op.w_out))
      + L * (op.h_out * op.w_out) + (oh * op.w_out + ow)) % (op.h_out * op.w_out)
      = oh * op.w_out + ow := by
    rw [show b * (op.chan_in * (op.kernel * op.kernel) * (op.h_out * op.w_out))
        + L * (op.h_out * op.w_out) + (oh * op.w_out + ow)
        = (oh * op.w_out + ow)
          + (op.h_out * op.w_out) * (b * (op.chan_in * (op.kernel * op.kernel)) + L)
        from by ring,
      Nat.add_mul_mod_self_left, Nat.mod_eq_of_lt hp]
  have e8 : (b * (op.chan_in * (op.kernel * op.kernel) * (op.h_out * op.w_out))
      + L * (op.h_out * op.w_out) + (oh * op.w_out + ow)) / (op.h_out * op.w_out)
      = b * (op.chan_in * (op.kernel * op.kernel)) + L := by
    rw [show b * (op.chan_in * (op.kernel * op.kernel) * (op.h_out * op.w_out))
        + L * (op.h_out * op.w_out) + (oh * op.w_out + ow)
        = (oh * op.w_out + ow)
          + (op.h_out * op.w_out) * (b * (op.chan_in * (op.kernel * op.kernel)) + L)
        from by ring,
      Nat.add_mul_div_left _ _ hn, Nat.div_eq_of_lt hp, Nat.zero_add]
  have e9 : (b * (op.chan_in * (op.kernel * op.kernel)) + L)
      % (op.chan_in * (op.kernel * op.kernel)) = L := by
    rw [show b * (op.chan_in * (op.kernel * op.kernel)) + L
        = L + op.chan_in * (op.kernel * op.kernel) * b from by ring,
      Nat.add_mul_mod_self_left, Nat.mod_eq_of_lt hl]
  have hpl : (oh * op.w_out + ow) + (op.h_out * op.w_out) * L
      < op.chan_in * (op.kernel * op.kernel) * (op.h_out * op.w_out) := by
    calc (oh * op.w_out + ow) + (op.h_out * op.w_out) * L
        < (op.h_out * op.w_out) + (op.h_out * op.w_out) * L := Nat.add_lt_add_right hp _
    _ = (op.h_out * op.w_out) * (L + 1) := by ring
    _ ≤ (op.h_out * op.w_out) * (op.chan_in * (op.kernel * op.kernel)) :=
        Nat.mul_le_mul_left _ hl
    _ = op.chan_in * (op.kernel * op.kernel) * (op.h_out * op.w_out) := Nat.mul_comm _ _
  have e10 : (b * (op.chan_in * (op.kernel * op.kernel) * (op.h_out * op.w_out))
      + L * (op.h_out * op.w_out) + (oh * op.w_out + ow))
      / (op.chan_in * (op.kernel * op.kernel) * (op.h_out * op.w_out)) = b := by
    rw [show b * (op.chan_in * (op.kernel * op.kernel) * (op.h_out * op.w_out))
        + L * (op.h_out * op.w_out) + (oh * op.w_out + ow)
        = ((oh * op.w_out + ow) + (op.h_out * op.w_out) * L)
          + op.chan_in * (op.kernel * op.kernel) * (op.h_out * op.w_out) * b
        from by ring,
      Nat.add_mul_div_left _ _ (Nat.mul_pos hckk hn), Nat.div_eq_of_lt hpl, Nat.zero_add]
  rw [e7, e10, e8, e9, e1, e2, e3, e4, e6, e5]

/-- C6: The unfold-plus-batched-GEMM convolution forward produces the same
output as the naive direct nested-loop convolution with the same stride and
padding, at every in-range output position. -/
theorem conv_gemm_matches_direct (op : Conv2DOp) (weights : Nat → ℚ)
    (inp : Nat → Nat → Nat → Nat → ℚ) (b o oh ow : Nat)
    (hoh : oh < op.h_out) (how : ow < op.w_out) :
    conv2dForwardGemm op weights inp b o (oh * op.w_out + ow)
      = conv2dDirect op weights inp b o oh ow := by
  unfold conv2dForwardGemm conv2dDirect
  rw [sum_range_mul]
  refine Finset.sum_congr rfl fun c hc => ?_
  rw [sum_range_mul]
  refine Finset.sum_congr rfl fun k1 hk1 => ?_
  refine Finset.sum_congr rfl fun k2 hk2 => ?_
  rw [Finset.mem_range] at hc hk1 hk2
  rw [unfoldPatches_at op inp b c k1 k2 oh ow hc hk1 hk2 hoh how,
    show o * (op.chan_in * (op.kernel * op.kernel))
        + (c * (op.kernel * op.kernel) + (k1 * op.kernel + k2))
      = ((o * op.chan_in + c) * op.kernel + k1) * op.kernel + k2 from by ring]
  cases checked_sub (oh * op.stride + k1) op.padding <;>
    cases checked_sub (ow * op.stride + k2) op.padding <;>
    simp [mul_ite]

/-- Witness for C6 on a 1x1x1x1 convolution with kernel 1: both formulations
give weight times input, 2 * 3 = 6. -/
theorem conv_gemm_matches_direct_witness :
    conv2dForwardGemm convOpW (fun _ => 2) (fun _ _ _ _ => 3) 0 0 (0 * convOpW.w_out + 0)
        = conv2dDirect convOpW (fun _ => 2) (fun _ _ _ _ => 3) 0 0 0 0
      ∧ conv2dDirect convOpW (fun _ => 2) (fun _ _ _ _ => 3) 0 0 0 0 = 6 := by
  refine ⟨conv_gemm_matches_direct convOpW _ _ 0 0 0 0 (by decide) (by decide), ?_⟩
  norm_num [conv2dDirect, checked_sub, convOpW, Finset.sum_range_succ]

/-- C1: One RMSprop update with centered false, no momentum, no weight decay,
alpha 9/10, eps 10^-8, lr 1/100, from param 2, grad 4, square_avg 0 yields
square_avg 16/10 and param 2 - (1/100) * 4 / sqrt(16/10 + 10^-8), with eps
added inside the square root argument before the root is taken.  Stated for
every square root function, so the placement of eps is pinned syntactically. -/
theorem rmsprop_single_step (sqrtF : ℚ → ℚ) :
    rmspropUpdateElem sqrtF ⟨1/100, 9/10, 1/100000000, none, false, none⟩ 2 4 0 0 0
      = (2 - 1/100 * 4 / sqrtF (16/10 + 1/100000000), 16/10, 0, 0) := by
  unfold rmspropUpdateElem
  simp only [Prod.mk.injEq]
  norm_num
  ring

/-- C7: Every forward that allocates a fresh output Storage (comparisons,
scalar comparisons, choose, min-reduce, gather, select) records the default
contiguous row-major strides of the output shape on the returned Storage. -/
theorem fresh_outputs_have_contiguous_strides (lhs rhs cond inp idx : CudaMeta)
    (scalar : ℚ) (dst : List Nat) :
    (cmpForward lhs rhs).strides = contigStrides (cmpForward lhs rhs).shape
      ∧ (scalarCmpForward lhs scalar).strides
        = contigStrides (scalarCmpForward lhs scalar).shape
      ∧ (chooseForward cond lhs rhs).strides
        = contigStrides (chooseForward cond lhs rhs).shape
      ∧ (gatherForward inp idx dst).strides = contigStrides (gatherForward inp idx dst).shape
      ∧ (selectForward inp idx dst).strides = contigStrides (selectForward inp idx dst).shape
      ∧ (minReduceForward inp dst).strides = contigStrides (minReduceForward inp dst).shape :=
  ⟨rfl, rfl, rfl, rfl, rfl, rfl⟩

/-- C8: The optimizer update succeeds exactly when every tracked parameter has
a gradient entry; when an entry is missing, it returns the unused-parameters
error naming the missing parameter rather than silently skipping it. -/
theorem optimizer_update_requires_all_gradients (stepF : ℚ → ℚ → ℚ)
    (params : List (Nat × ℚ)) (grads : Nat → Option ℚ) :
    ((∀ pv ∈ params, (grads pv.1).isSome) →
        ∃ updated, optimizerUpdate stepF params grads = Except.ok updated)
      ∧ (∀ pv ∈ params, grads pv.1 = none →
          ∃ l, optimizerUpdate stepF params grads = Except.error l ∧ pv.1 ∈ l)
      ∧ (∀ updated, optimizerUpdate stepF params grads = Except.ok updated →
          ∀ pv ∈ params, (grads pv.1).isSome) := by
  refine ⟨?_, ?_, ?_⟩
  · intro h
    have hfil : (params.filter fun pv => (grads pv.1).isNone) = [] := by
      rw [List.filter_eq_nil_iff]
      intro pv hpv
      have := h pv hpv
      simp [Option.isNone_iff_eq_none]
      exact Option.ne_none_iff_isSome.mpr this
    refine ⟨params.map fun pv =>
      (pv.1, match grads pv.1 with
             | some g => stepF pv.2 g
             | none => pv.2), ?_⟩
    simp [optimizerUpdate, hfil]
  · intro pv hpv hnone
    have hmem : pv ∈ params.filter fun pv => (grads pv.1).isNone := by
      rw [List.mem_filter]
      exact ⟨hpv, by simp [hnone]⟩
    have hmem2 : pv.1 ∈ (params.filter fun pv => (grads pv.1).isNone).map Prod.fst :=
      List.mem_map_of_mem Prod.fst hmem
    have hne : ((params.filter fun pv => (grads pv.1).isNone).map Prod.fst) ≠ [] :=
      List.ne_nil_of_mem hmem2
    refine ⟨_, ?_, hmem2⟩
    simp only [optimizerUpdate]
    rw [if_neg hne]
  · intro updated hok pv hpv
    by_contra hnot
    have hnone : grads pv.1 = none := by
      cases hg : grads pv.1
      · rfl
      · exact absurd (by simp [hg]) hnot
    have hmem : pv ∈ params.filter fun pv => (grads pv.1).isNone := by
      rw [List.mem_filter]
      exact ⟨hpv, by simp [hnone]⟩
    have hne : ((params.filter fun pv => (grads pv.1).isNone).map Prod.fst) ≠ [] :=
      List.ne_nil_of_mem (List.mem_map_of_mem Prod.fst hmem)
    simp only [optimizerUpdate] at hok
    rw [if_neg hne] at hok
    cases hok

/-- Witness for C8: with parameter key 5 tracked, a total gradient map gives a
successful update, and an empty gradient map reports key 5 unused. -/
theorem optimizer_update_requires_all_gradients_witness :
    (∃ updated, optimizerUpdate (fun p g => p - g) [(5, 2)] (fun _ => some 1)
        = Except.ok updated)
      ∧ (∃ l, optimizerUpdate (fun p g => p - g) [(5, 2)] (fun _ => none)
          = Except.error l ∧ 5 ∈ l) :=
  ⟨(optimizer_update_requires_all_gradients (fun p g => p - g) [(5, 2)]
      (fun _ => some 1)).1 (by decide),
   (optimizer_update_requires_all_gradients (fun p g => p - g) [(5, 2)]
      (fun _ => none)).2.1 (5, 2) (by decide) rfl⟩

/-- C9: make_4d aborts (panics) for every rank other than 3 and 4, so every
pool forward or backward call with such a rank aborts before touching data. -/
theorem make_4d_aborts_outside_rank_3_4 (nd : Nat) (s : Nat → Nat)
    (h3 : nd ≠ 3) (h4 : nd ≠ 4) :
    make_4d nd s = none
      ∧ (∀ op ndO ostrides inp out, avgPool2dForwardSized op nd ndO s ostrides inp out = none)
      ∧ (∀ op ndO ostrides inp grad_inp out grad_out,
          maxPool2dBackwardSized op nd ndO s ostrides inp grad_inp out grad_out = none) := by
  have hm : make_4d nd s = none := by
    match nd, h3, h4 with
    | 0, _, _ => rfl
    | 1, _, _ => rfl
    | 2, _, _ => rfl
    | 3, h3, _ => exact absurd rfl h3
    | 4, _, h4 => exact absurd rfl h4
    | (n + 5), _, _ => rfl
  refine ⟨hm, fun op ndO ostrides inp out => ?_,
    fun op ndO ostrides inp grad_inp out grad_out => ?_⟩
  · unfold avgPool2dForwardSized
    rw [hm]
  · unfold maxPool2dBackwardSized
    rw [hm]

/-- Witness for C9 at rank 5: make_4d and both entry points abort. -/
theorem make_4d_aborts_outside_rank_3_4_witness :
    make_4d 5 (fun _ => 1) = none
      ∧ (∀ op ndO ostrides inp out,
          avgPool2dForwardSized op 5 ndO (fun _ => 1) ostrides inp out = none)
      ∧ (∀ op ndO ostrides inp grad_inp out grad_out,
          maxPool2dBackwardSized op 5 ndO (fun _ => 1) ostrides inp grad_inp out grad_out
            = none) :=
  make_4d_aborts_outside_rank_3_4 5 (fun _ => 1) (by decide) (by decide)

/-- C10: In a fresh process, every backward fetch returns none (the unwrap
panics) because only the forward kernels lazily load the module; after the
matching forward has run once, the backward fetch succeeds. -/
theorem backward_unwrap_panics_before_forward :
    minToBackwardFetch freshDev = none
      ∧ chooseBackwardFetch freshDev = none
      ∧ selectBackwardFetch freshDev = none
      ∧ minToBackwardFetch (minToForwardLoad freshDev) = some ()
      ∧ chooseBackwardFetch (chooseForwardLoad freshDev) = some ()
      ∧ selectBackwardFetch (selectForwardLoad freshDev) = some () := by
  refine ⟨rfl, rfl, rfl, ?_, ?_, ?_⟩ <;> decide

end Dfdx
